import Mathlib

/-!
Shallow embedding of `src/semver.py` (class `BaseVersion`): an immutable
sequence of integer parts with construction, parsing, comparison, indexing
and rendering.  Strings are modelled as `List Char`; Python exceptions as an
explicit error type returned through `Except`.
-/

set_option autoImplicit false

namespace PySemver

/-- The `BaseVersion` value: the internal tuple `__version_parts`,
modelled as a list of integers. -/
structure BaseVersion where
  parts : List Int
  deriving DecidableEq, Repr

/-- Python exceptions raised by the class, as an explicit error type:
`invalidPart` is the `TypeError` from `__fill_parts`, `parseError` the
`ValueError` raised by `int()` inside `from_string`, `typeMismatch` the
`TypeError` the interpreter produces for an unsupported ordering comparison,
`indexOutOfRange` the `IndexError` and `invalidKeyType` the `TypeError` from
`__getitem__`, and `zeroStep` the `ValueError` for a slice step of zero. -/
inductive SemverError where
  | invalidPart (value : List Char)
  | parseError (token : List Char)
  | typeMismatch
  | indexOutOfRange
  | invalidKeyType
  | zeroStep
  deriving DecidableEq, Repr

/-- An argument to the constructor: either a Python `int`, or a value of some
other type carrying its display text (used in the error message). -/
inductive PyArg where
  | intArg (i : Int)
  | nonInt (text : List Char)
  deriving DecidableEq, Repr

/-- The `isinstance(part, int)` check of `__fill_parts`. -/
def isIntArg : PyArg → Bool
  | .intArg _ => true
  | .nonInt _ => false

/-- `BaseVersion.__fill_parts`: walk the arguments in order, failing with the
`TypeError` (`invalidPart`) carrying the first argument that is not an
`int`; otherwise collect the parts into the internal tuple. -/
def fill_parts : List PyArg → Except SemverError (List Int)
  | [] => .ok []
  | .intArg i :: rest => (fill_parts rest).map (i :: ·)
  | .nonInt t :: _ => .error (.invalidPart t)

/-- `BaseVersion.__init__`: build a version from constructor arguments. -/
def construct (args : List PyArg) : Except SemverError BaseVersion :=
  (fill_parts args).map BaseVersion.mk

/-- `BaseVersion.__len__`: `len(self.__version_parts)`. -/
def version_len (v : BaseVersion) : Nat := v.parts.length

/-- Python tuple `<` on integer tuples: compare element-wise from index 0,
the first differing element decides; a strict prefix is smaller. -/
def tupLt : List Int → List Int → Bool
  | [], [] => false
  | [], _ :: _ => true
  | _ :: _, [] => false
  | x :: xs, y :: ys => if x < y then true else if x = y then tupLt xs ys else false

/-- `BaseVersion.__eq__` between two versions: Python tuple equality. -/
def version_eq (a b : BaseVersion) : Bool := a.parts == b.parts

/-- `BaseVersion.__lt__` between two versions: `self_parts < b_parts`. -/
def version_lt (a b : BaseVersion) : Bool := tupLt a.parts b.parts

/-- `BaseVersion.__gt__` between two versions: `self_parts > b_parts`
(Python tuple `>` is the mirror of tuple `<`). -/
def version_gt (a b : BaseVersion) : Bool := tupLt b.parts a.parts

/-- `BaseVersion.__ge__`: `self_parts > b_parts or self_parts == b_parts`. -/
def version_ge (a b : BaseVersion) : Bool := version_gt a b || version_eq a b

/-- `BaseVersion.__le__`: `self_parts < b_parts or self_parts == b_parts`. -/
def version_le (a b : BaseVersion) : Bool := version_lt a b || version_eq a b

/-- The right operand of a comparison: another `BaseVersion`, or a value of a
foreign type (for instance a plain number) whose own comparison methods
return `NotImplemented` when given a version. -/
inductive PyOperand where
  | ver (v : BaseVersion)
  | foreign (tag : Nat)
  deriving DecidableEq, Repr

/-- `v == b`.  The method returns `NotImplemented` when `b` is not a
`BaseVersion`; the interpreter then tries the reflected operation (also
`NotImplemented` for a foreign value) and finally falls back to the identity
comparison, which yields `False` for two distinct objects. -/
def py_eq (a : BaseVersion) : PyOperand → Except SemverError Bool
  | .ver b => .ok (version_eq a b)
  | .foreign _ => .ok false

/-- `v != b`: the default `__ne__` negates `__eq__`; for a foreign operand
the interpreter identity fallback yields `True`. -/
def py_ne (a : BaseVersion) : PyOperand → Except SemverError Bool
  | .ver b => .ok (!version_eq a b)
  | .foreign _ => .ok true

/-- `v < b`: when both the method and the reflected method return
`NotImplemented` (foreign operand), the interpreter raises `TypeError`. -/
def py_lt (a : BaseVersion) : PyOperand → Except SemverError Bool
  | .ver b => .ok (version_lt a b)
  | .foreign _ => .error .typeMismatch

/-- `v > b`: as `py_lt`, raising `TypeError` on a foreign operand. -/
def py_gt (a : BaseVersion) : PyOperand → Except SemverError Bool
  | .ver b => .ok (version_gt a b)
  | .foreign _ => .error .typeMismatch

/-- `v <= b`: as `py_lt`, raising `TypeError` on a foreign operand. -/
def py_le (a : BaseVersion) : PyOperand → Except SemverError Bool
  | .ver b => .ok (version_le a b)
  | .foreign _ => .error .typeMismatch

/-- `v >= b`: as `py_lt`, raising `TypeError` on a foreign operand. -/
def py_ge (a : BaseVersion) : PyOperand → Except SemverError Bool
  | .ver b => .ok (version_ge a b)
  | .foreign _ => .error .typeMismatch

/-- The character of a decimal digit (only applied to values below ten). -/
def digitChar : Nat → Char
  | 0 => '0'
  | 1 => '1'
  | 2 => '2'
  | 3 => '3'
  | 4 => '4'
  | 5 => '5'
  | 6 => '6'
  | 7 => '7'
  | 8 => '8'
  | _ => '9'

/-- Decimal digits of `n`, most significant first, with explicit fuel (each
step divides by 10, so `n + 1` steps always suffice). -/
def natDigitsAux : Nat → Nat → List Char
  | 0, _ => []
  | fuel + 1, n =>
    if n < 10 then [digitChar n]
    else natDigitsAux fuel (n / 10) ++ [digitChar (n % 10)]

/-- Decimal digits of a natural number, most significant first. -/
def natToDigits (n : Nat) : List Char := natDigitsAux (n + 1) n

/-- Python `str` of an integer: canonical decimal form, with a leading `-`
for negative values. -/
def intRender (i : Int) : List Char :=
  if i < 0 then '-' :: natToDigits (-i).toNat else natToDigits i.toNat

/-- Python `sep.join(tokens)` for a one-character separator. -/
def joinSep (c : Char) : List (List Char) → List Char
  | [] => []
  | [t] => t
  | t :: t2 :: ts => t ++ c :: joinSep c (t2 :: ts)

/-- `BaseVersion.__str__`: `".".join(str(p) for p in parts)`. -/
def version_str (v : BaseVersion) : List Char :=
  joinSep '.' (v.parts.map intRender)

/-- Python `s.split(sep)` for a one-character separator: always returns at
least one token; the empty string yields one empty token. -/
def splitSep (c : Char) : List Char → List (List Char)
  | [] => [[]]
  | a :: rest =>
    if a = c then [] :: splitSep c rest
    else
      match splitSep c rest with
      | t :: ts => (a :: t) :: ts
      | [] => [[a]]

/-- ASCII whitespace stripped by Python `int`. -/
def isSpace (c : Char) : Bool :=
  c = ' ' || c = '\t' || c = '\n' || c = '\r' || c = '\x0b' || c = '\x0c'

/-- Is `c` a decimal digit. -/
def isDig (c : Char) : Bool := 48 ≤ c.toNat && c.toNat ≤ 57

/-- Value of a decimal digit character. -/
def digitVal (c : Char) : Nat := c.toNat - 48

/-- Digits after the first one, allowing a single underscore between two
digits, as Python `int` literals do. -/
def digitsCore (acc : Nat) : List Char → Option Nat
  | [] => some acc
  | c :: cs =>
    if isDig c then digitsCore (acc * 10 + digitVal c) cs
    else if c = '_' then
      match cs with
      | [] => none
      | c2 :: cs2 => if isDig c2 then digitsCore (acc * 10 + digitVal c2) cs2 else none
    else none

/-- A non-empty digit sequence (with optional internal underscores). -/
def parseDigits : List Char → Option Nat
  | [] => none
  | c :: cs => if isDig c then digitsCore (digitVal c) cs else none

/-- Strip leading and trailing whitespace. -/
def stripSpaces (l : List Char) : List Char :=
  ((l.dropWhile isSpace).reverse.dropWhile isSpace).reverse

/-- Python `int(str)`: optional surrounding whitespace, an optional sign,
then a non-empty digit sequence with optional single underscores. -/
def pyParseInt (s : List Char) : Option Int :=
  match stripSpaces s with
  | '-' :: rest => (parseDigits rest).map (fun n => -(n : Int))
  | '+' :: rest => (parseDigits rest).map (fun n => (n : Int))
  | rest => (parseDigits rest).map (fun n => (n : Int))

/-- The comprehension `[int(v) for v in version.split(".")]`: fails with the
`ValueError` (`parseError`) carrying the first token that is not a valid
integer literal. -/
def parseParts : List (List Char) → Except SemverError (List Int)
  | [] => .ok []
  | t :: ts =>
    match pyParseInt t with
    | none => .error (.parseError t)
    | some i => (parseParts ts).map (i :: ·)

/-- `BaseVersion.from_string`: split on `.`, parse every token as an
integer, and build the version from the resulting parts. -/
def from_string (s : List Char) : Except SemverError BaseVersion :=
  (parseParts (splitSep '.' s)).map BaseVersion.mk

/-- The characters of a Python integer-tuple `repr` after the opening
parenthesis: `)`, `x,)`, or `x, y, ...)`. -/
def tupleBody : List Int → List Char
  | [] => [')']
  | [x] => intRender x ++ [',', ')']
  | x :: x2 :: xs =>
    intRender x ++ (x2 :: xs).flatMap (fun y => ',' :: ' ' :: intRender y) ++ [')']

/-- Python `repr` of an integer tuple: `()`, `(x,)`, or `(x, y, ...)`. -/
def tupleRepr (l : List Int) : List Char := '(' :: tupleBody l

/-- `BaseVersion.__repr__`: `f"Version{self.__version_parts}"`. -/
def version_repr (v : BaseVersion) : List Char :=
  'V' :: 'e' :: 'r' :: 's' :: 'i' :: 'o' :: 'n' :: tupleRepr v.parts

/-- Drop the trailing empty token produced by splitting the one-element
tuple body `x,` on `,`. -/
def dropTrailingEmpty (toks : List (List Char)) : List (List Char) :=
  if toks.getLast? = some [] then toks.dropLast else toks

/-- Recover the parts from what follows `Version(` in a debug string: check
the trailing `)`, split the remaining body on `,`, drop the trailing empty
token of the one-element form, and parse every token back. -/
def reprDecodeBody (rest : List Char) : Option (List Int) :=
  if rest.getLast? = some ')' then
    if rest.dropLast = [] then some []
    else (dropTrailingEmpty (splitSep ',' rest.dropLast)).mapM pyParseInt
  else none

/-- Recover the parts from the output of `version_repr` (used to show that
the debug form determines the value). -/
def reprDecode (s : List Char) : Option (List Int) :=
  match s with
  | 'V' :: 'e' :: 'r' :: 's' :: 'i' :: 'o' :: 'n' :: '(' :: rest => reprDecodeBody rest
  | _ => none

/-- A component of a Python slice: omitted (`None`), an `int`, or a value of
another type (which makes the subscript raise `TypeError`). -/
inductive SliceComp where
  | noneC
  | intC (i : Int)
  | otherC (text : List Char)
  deriving DecidableEq, Repr

/-- A `__getitem__` key: an `int`, a slice, or a value of another type. -/
inductive Key where
  | idx (i : Int)
  | slc (start stop step : SliceComp)
  | other (text : List Char)
  deriving DecidableEq, Repr

/-- Result of `__getitem__`: a single part, or a tuple of parts. -/
inductive GetResult where
  | one (i : Int)
  | seq (l : List Int)
  deriving DecidableEq, Repr

/-- A slice component as `Option Int`, or `none` if it has a foreign type. -/
def decodeComp : SliceComp → Option (Option Int)
  | .noneC => some none
  | .intC i => some (some i)
  | .otherC _ => none

/-- CPython `PySlice_AdjustIndices`: clamp an explicit slice endpoint to the
valid range for the sign of the step. -/
def clampIdx (n : Nat) (step s : Int) : Int :=
  if 0 < step then (if s < 0 then max (s + n) 0 else min s n)
  else if s < 0 then max (s + n) (-1) else min s ((n : Int) - 1)

/-- The effective slice start: defaults depend on the sign of the step. -/
def adjStart (n : Nat) (step : Int) : Option Int → Int
  | none => if 0 < step then 0 else (n : Int) - 1
  | some s => clampIdx n step s

/-- The effective slice stop: defaults depend on the sign of the step. -/
def adjStop (n : Nat) (step : Int) : Option Int → Int
  | none => if 0 < step then (n : Int) else -1
  | some s => clampIdx n step s

/-- CPython slice length: the number of indices `start, start + step, ...`
strictly before `stop` in the direction of `step`. -/
def sliceLen (start stop step : Int) : Nat :=
  if 0 < step then
    if start < stop then (stop - start - 1).toNat / step.toNat + 1 else 0
  else
    if stop < start then (start - stop - 1).toNat / (-step).toNat + 1 else 0

/-- The parts selected by an adjusted slice. -/
def sliceSelect (parts : List Int) (start step : Int) (len : Nat) : List Int :=
  (List.range len).map fun k : Nat => parts.getD (start + step * (k : Int)).toNat 0

/-- `BaseVersion.__getitem__`: `self.__version_parts[key]` with Python tuple
subscript semantics.  For a slice, CPython unpacks the step first (raising
`TypeError` for a foreign step, `ValueError` for a zero step), then the
endpoints, then clamps and walks the selected indices. -/
def getitem (v : BaseVersion) : Key → Except SemverError GetResult
  | .idx i =>
    let n := v.parts.length
    let j := if i < 0 then i + n else i
    if 0 ≤ j ∧ j < n then .ok (.one (v.parts.getD j.toNat 0))
    else .error .indexOutOfRange
  | .slc st sp stp =>
    match decodeComp stp with
    | none => .error .invalidKeyType
    | some ostep =>
      let step := ostep.getD 1
      if step = 0 then .error .zeroStep
      else
        match decodeComp st, decodeComp sp with
        | some os, some op =>
          let n := v.parts.length
          let a := adjStart n step os
          let b := adjStop n step op
          .ok (.seq (sliceSelect v.parts a step (sliceLen a b step)))
        | _, _ => .error .invalidKeyType
  | .other _ => .error .invalidKeyType

/-- Encode an optional integer as a slice component. -/
def encOpt : Option Int → SliceComp
  | none => .noneC
  | some i => .intC i

/-- The spec's lexicographic strict order on part lists: either the first
list is a strict prefix of the second, or at the first position where they
differ the first list has the smaller part. -/
def lexLtSpec (x y : List Int) : Prop :=
  (x.length < y.length ∧ y.take x.length = x) ∨
  ∃ k : Nat, k < x.length ∧ k < y.length ∧ x.take k = y.take k ∧ x.getD k 0 < y.getD k 0

/-! ### Lemmas about Python tuple comparison -/

theorem tupLt_nil_right : ∀ x : List Int, tupLt x [] = false
  | [] => rfl
  | _ :: _ => rfl

theorem tupLt_irrefl : ∀ l : List Int, tupLt l l = false
  | [] => rfl
  | x :: xs => by
    have ih := tupLt_irrefl xs
    simp [tupLt, ih]

theorem tupLt_asymm : ∀ x y : List Int, tupLt x y = true → tupLt y x = false
  | [], [] => by simp [tupLt]
  | [], _ :: _ => by simp [tupLt]
  | _ :: _, [] => by simp [tupLt]
  | x :: xs, y :: ys => by
    intro h
    simp only [tupLt] at h ⊢
    rcases lt_trichotomy x y with hlt | heq | hgt
    · simp only [if_neg (show ¬ y < x by omega), if_neg (show ¬ y = x by omega)]
    · subst heq
      rw [if_neg (lt_irrefl x), if_pos rfl] at h
      simp only [if_neg (lt_irrefl x), if_pos rfl]
      exact tupLt_asymm xs ys h
    · rw [if_neg (show ¬ x < y by omega), if_neg (show ¬ x = y by omega)] at h
      simp at h

theorem tupLt_trans : ∀ x y z : List Int,
    tupLt x y = true → tupLt y z = true → tupLt x z = true
  | x, [], _ => by intro h _; rw [tupLt_nil_right] at h; cases h
  | x, _ :: _, [] => by intro _ h; rw [tupLt_nil_right] at h; cases h
  | [], _ :: _, _ :: _ => by intro _ _; rfl
  | x :: xs, y :: ys, z :: zs => by
    intro h1 h2
    simp only [tupLt] at h1 h2 ⊢
    rcases lt_trichotomy x y with hxy | hxy | hxy
    · rcases lt_trichotomy y z with hyz | hyz | hyz
      · rw [if_pos (show x < z by omega)]
      · rw [if_pos (show x < z by omega)]
      · rw [if_neg (show ¬ y < z by omega), if_neg (show ¬ y = z by omega)] at h2
        simp at h2
    · subst hxy
      rw [if_neg (lt_irrefl x), if_pos rfl] at h1
      rcases lt_trichotomy x z with hyz | hyz | hyz
      · rw [if_pos hyz]
      · subst hyz
        rw [if_neg (lt_irrefl x), if_pos rfl] at h2 ⊢
        exact tupLt_trans xs ys zs h1 h2
      · rw [if_neg (show ¬ x < z by omega), if_neg (show ¬ x = z by omega)] at h2
        simp at h2
    · rw [if_neg (show ¬ x < y by omega), if_neg (show ¬ x = y by omega)] at h1
      simp at h1

theorem tupLt_connex : ∀ x y : List Int, tupLt x y = true ∨ x = y ∨ tupLt y x = true
  | [], [] => .inr (.inl rfl)
  | [], _ :: _ => .inl rfl
  | _ :: _, [] => .inr (.inr rfl)
  | x :: xs, y :: ys => by
    rcases lt_trichotomy x y with h | h | h
    · left; simp [tupLt, h]
    · subst h
      rcases tupLt_connex xs ys with ih | ih | ih
      · left; simp [tupLt, ih]
      · right; left; rw [ih]
      · right; right; simp [tupLt, ih]
    · right; right; simp [tupLt, h]

theorem lexLtSpec_cons (a b : Int) (xs ys : List Int) :
    lexLtSpec (a :: xs) (b :: ys) ↔ a < b ∨ (a = b ∧ lexLtSpec xs ys) := by
  constructor
  · rintro (⟨hlen, htake⟩ | ⟨k, hk1, hk2, htake, hlt⟩)
    · simp only [List.length_cons, List.take_succ_cons] at htake hlen
      obtain ⟨hba, hys⟩ := List.cons.injEq .. ▸ htake
      right
      exact ⟨hba.symm, .inl ⟨by omega, hys⟩⟩
    · match k with
      | 0 =>
        left
        simpa using hlt
      | j + 1 =>
        simp only [List.length_cons, List.take_succ_cons, List.getD_cons_succ] at hk1 hk2 htake hlt
        obtain ⟨hab, hts⟩ := List.cons.injEq .. ▸ htake
        right
        exact ⟨hab, .inr ⟨j, by omega, by omega, hts, hlt⟩⟩
  · rintro (h | ⟨rfl, hspec⟩)
    · right
      exact ⟨0, by simp, by simp, by simp, by simpa using h⟩
    · rcases hspec with ⟨hlen, htake⟩ | ⟨k, hk1, hk2, htake, hlt⟩
      · left
        constructor
        · simp only [List.length_cons]; omega
        · simp [List.take_succ_cons, htake]
      · right
        refine ⟨k + 1, ?_, ?_, ?_, ?_⟩
        · simp only [List.length_cons]; omega
        · simp only [List.length_cons]; omega
        · simp [List.take_succ_cons, htake]
        · simpa using hlt

theorem tupLt_iff_lexLtSpec : ∀ x y : List Int, tupLt x y = true ↔ lexLtSpec x y
  | [], [] => by simp [tupLt, lexLtSpec]
  | [], y :: ys => by simp [tupLt, lexLtSpec]
  | x :: xs, [] => by simp [tupLt, lexLtSpec]
  | x :: xs, y :: ys => by
    rw [lexLtSpec_cons]
    simp only [tupLt]
    rcases lt_trichotomy x y with h | h | h
    · simp [h]
    · subst h
      simp [lt_irrefl, tupLt_iff_lexLtSpec xs ys]
    · simp [show ¬ x < y by omega, show x ≠ y by omega]

theorem list_eq_of_getD : ∀ l₁ l₂ : List Int, l₁.length = l₂.length →
    (∀ i, i < l₁.length → l₁.getD i 0 = l₂.getD i 0) → l₁ = l₂
  | [], [], _, _ => rfl
  | [], _ :: _, h, _ => by cases h
  | _ :: _, [], h, _ => by cases h
  | a :: l₁, b :: l₂, h, hi => by
    have hab : a = b := by simpa using hi 0 (by simp)
    have hrest : l₁ = l₂ :=
      list_eq_of_getD l₁ l₂ (by simpa using h)
        (fun i hlt => by
          simpa using hi (i + 1) (by simp only [List.length_cons]; omega))
    rw [hab, hrest]

/-! ### Claims C1 – C4 -/

/-- C1 counterexample: the claim says all six relational operations between a
`Version` and a non-`Version` fail with `TypeMismatch`, and in particular
that equality does not silently return false — but on the code, `__eq__`
returns `NotImplemented` and the interpreter fallback makes `==` with a
plain number return `False` (and `!=` return `True`), just as the source's
own doctest `version_short == 4` → `False` records. -/
theorem claim_c1_counterexample :
    py_eq ⟨[4]⟩ (.foreign 0) = .ok false ∧ py_ne ⟨[4]⟩ (.foreign 0) = .ok true :=
  ⟨rfl, rfl⟩

/-- C1 (amended): comparing a `Version` to a non-`Version` fails with
`TypeMismatch` for the four ordering operators `<`, `>`, `<=`, `>=`, while
equality silently returns false and inequality true. -/
theorem claim_c1_amended (v : BaseVersion) (t : Nat) :
    py_lt v (.foreign t) = .error .typeMismatch ∧
    py_gt v (.foreign t) = .error .typeMismatch ∧
    py_le v (.foreign t) = .error .typeMismatch ∧
    py_ge v (.foreign t) = .error .typeMismatch ∧
    py_eq v (.foreign t) = .ok false ∧
    py_ne v (.foreign t) = .ok true :=
  ⟨rfl, rfl, rfl, rfl, rfl, rfl⟩

/-- C2: two versions are equal exactly when their part sequences have the
same length and the same integer at every position; and a version is not
equal to the same version extended with a trailing zero part. -/
theorem claim_c2 :
    (∀ a b : BaseVersion, version_eq a b = true ↔
      (version_len a = version_len b ∧
        ∀ i, i < version_len a → a.parts.getD i 0 = b.parts.getD i 0)) ∧
    version_eq ⟨[2023, 3, 5]⟩ ⟨[2023, 3, 5, 0]⟩ = false := by
  constructor
  · intro a b
    constructor
    · intro h
      have hp : a.parts = b.parts := by simpa [version_eq] using h
      simp [version_len, hp]
    · rintro ⟨hlen, hi⟩
      have hp : a.parts = b.parts := list_eq_of_getD _ _ hlen hi
      simp [version_eq, hp]
  · decide

/-- C2 witness: the characterization applied to two equal concrete
versions. -/
theorem claim_c2_witness :
    version_len (⟨[2023, 3, 5]⟩ : BaseVersion) = version_len (⟨[2023, 3, 5]⟩ : BaseVersion) ∧
    ∀ i, i < version_len (⟨[2023, 3, 5]⟩ : BaseVersion) →
      (([2023, 3, 5] : List Int)).getD i 0 = (([2023, 3, 5] : List Int)).getD i 0 :=
  (claim_c2.1 ⟨[2023, 3, 5]⟩ ⟨[2023, 3, 5]⟩).mp (by decide)

/-- C3: `<` on versions is exactly the lexicographic order on the part
sequences (first differing position decides, a strict prefix is smaller,
e.g. `2023.3 < 2023.3.5`), and it is a strict total order: connex,
asymmetric and transitive. -/
theorem claim_c3 :
    (∀ a b : BaseVersion, version_lt a b = true ↔ lexLtSpec a.parts b.parts) ∧
    (∀ a b : BaseVersion, version_lt a b = true ∨ a = b ∨ version_lt b a = true) ∧
    (∀ a b : BaseVersion, version_lt a b = true → version_lt b a = false) ∧
    (∀ a b c : BaseVersion,
      version_lt a b = true → version_lt b c = true → version_lt a c = true) ∧
    version_lt ⟨[2023, 3]⟩ ⟨[2023, 3, 5]⟩ = true := by
  refine ⟨?_, ?_, ?_, ?_, by decide⟩
  · exact fun a b => tupLt_iff_lexLtSpec a.parts b.parts
  · intro a b
    rcases tupLt_connex a.parts b.parts with h | h | h
    · exact .inl h
    · refine .inr (.inl ?_)
      cases a; cases b; simpa using h
    · exact .inr (.inr h)
  · exact fun a b h => tupLt_asymm _ _ h
  · exact fun a b c h1 h2 => tupLt_trans _ _ _ h1 h2

/-- C3 witness: the asymmetry part applied to `2023.3 < 2023.3.5`. -/
theorem claim_c3_witness : version_lt ⟨[2023, 3, 5]⟩ ⟨[2023, 3]⟩ = false :=
  claim_c3.2.2.1 ⟨[2023, 3]⟩ ⟨[2023, 3, 5]⟩ (by decide)

/-- C4: `>=` returns the same boolean as `> OR ==`, `<=` the same as
`< OR ==`, and on equal versions `>=` and `<=` return true while `>`
returns false. -/
theorem claim_c4 :
    (∀ a b : BaseVersion, version_ge a b = (version_gt a b || version_eq a b)) ∧
    (∀ a b : BaseVersion, version_le a b = (version_lt a b || version_eq a b)) ∧
    (∀ a b : BaseVersion, version_eq a b = true →
      version_ge a b = true ∧ version_le a b = true ∧ version_gt a b = false) := by
  refine ⟨fun _ _ => rfl, fun _ _ => rfl, ?_⟩
  intro a b h
  have hp : a.parts = b.parts := by simpa [version_eq] using h
  refine ⟨?_, ?_, ?_⟩
  · simp [version_ge, h]
  · simp [version_le, h]
  · simp [version_gt, hp, tupLt_irrefl]

/-- C4 witness: on two equal concrete versions, `>=` and `<=` hold and `>`
does not. -/
theorem claim_c4_witness :
    version_ge ⟨[2023, 3, 5]⟩ ⟨[2023, 3, 5]⟩ = true ∧
    version_le ⟨[2023, 3, 5]⟩ ⟨[2023, 3, 5]⟩ = true ∧
    version_gt ⟨[2023, 3, 5]⟩ ⟨[2023, 3, 5]⟩ = false :=
  claim_c4.2.2 ⟨[2023, 3, 5]⟩ ⟨[2023, 3, 5]⟩ (by decide)

/-! ### Construction: lemmas and claim C7 -/

theorem except_map_ok {ε α β : Type} (f : α → β) (a : α) :
    (Except.ok a : Except ε α).map f = .ok (f a) := rfl

theorem except_map_error {ε α β : Type} (f : α → β) (e : ε) :
    (Except.error e : Except ε α).map f = .error e := rfl

theorem fill_parts_map_intArg : ∀ l : List Int, fill_parts (l.map .intArg) = .ok l
  | [] => rfl
  | i :: rest => by
    simp only [List.map_cons, fill_parts, fill_parts_map_intArg rest, except_map_ok]

theorem fill_parts_error_first :
    ∀ (pre : List Int) (t : List Char) (rest : List PyArg),
      fill_parts (pre.map .intArg ++ .nonInt t :: rest) = .error (.invalidPart t)
  | [], _, _ => rfl
  | i :: pre, t, rest => by
    have ih := fill_parts_error_first pre t rest
    show fill_parts (.intArg i :: (pre.map .intArg ++ .nonInt t :: rest)) = _
    simp only [fill_parts]
    rw [ih, except_map_error]

theorem fill_parts_ok_iff : ∀ args : List PyArg,
    (∃ l, fill_parts args = Except.ok l) ↔ ∀ a ∈ args, isIntArg a = true
  | [] => by simp [fill_parts]
  | .intArg i :: rest => by
    have ih := fill_parts_ok_iff rest
    simp only [fill_parts, List.mem_cons]
    constructor
    · rintro ⟨l, hl⟩ b hb
      rcases hb with rfl | hb
      · rfl
      · cases hx : fill_parts rest with
        | ok l' => exact ih.mp ⟨l', hx⟩ b hb
        | error e => rw [hx, except_map_error] at hl; cases hl
    · intro hall
      obtain ⟨l, hl⟩ := ih.mpr (fun b hb => hall b (.inr hb))
      exact ⟨i :: l, by rw [hl, except_map_ok]⟩
  | .nonInt t :: rest => by
    simp only [fill_parts, List.mem_cons]
    constructor
    · rintro ⟨l, hl⟩; cases hl
    · intro hall
      have h := hall (.nonInt t) (.inl rfl)
      simp [isIntArg] at h

theorem fill_parts_error_iff (args : List PyArg) :
    (∃ e, fill_parts args = .error e) ↔ ∃ a ∈ args, isIntArg a = false := by
  constructor
  · rintro ⟨e, he⟩
    by_contra hno
    push_neg at hno
    have hall : ∀ a ∈ args, isIntArg a = true := by
      intro a ha
      have h := hno a ha
      revert h
      cases isIntArg a <;> simp
    obtain ⟨l, hl⟩ := (fill_parts_ok_iff args).mpr hall
    rw [hl] at he
    cases he
  · rintro ⟨a, ha, hfa⟩
    cases hx : fill_parts args with
    | error e => exact ⟨e, rfl⟩
    | ok l =>
      have hall := (fill_parts_ok_iff args).mp ⟨l, hx⟩
      rw [hall a ha] at hfa
      cases hfa

/-- C7: construction succeeds exactly when every supplied value is an
integer, otherwise it fails with `InvalidPart` carrying the first offending
value; on success the part sequence is exactly the argument list (order,
duplicates and negative values preserved) and the length equals the number
of arguments, with zero arguments allowed. -/
theorem claim_c7 :
    (∀ l : List Int, construct (l.map .intArg) = .ok ⟨l⟩ ∧
      version_len ⟨l⟩ = (l.map PyArg.intArg).length) ∧
    (∀ (pre : List Int) (t : List Char) (rest : List PyArg),
      construct (pre.map .intArg ++ .nonInt t :: rest) = .error (.invalidPart t)) ∧
    (∀ args : List PyArg,
      (∃ e, construct args = .error e) ↔ ∃ a ∈ args, isIntArg a = false) ∧
    construct [] = .ok ⟨[]⟩ := by
  refine ⟨?_, ?_, ?_, rfl⟩
  · intro l
    refine ⟨?_, by simp [version_len]⟩
    rw [construct, fill_parts_map_intArg l, except_map_ok]
  · intro pre t rest
    rw [construct, fill_parts_error_first pre t rest, except_map_error]
  · intro args
    rw [← fill_parts_error_iff args]
    unfold construct
    cases fill_parts args with
    | ok l =>
      rw [except_map_ok]
      constructor
      · rintro ⟨e, he⟩; cases he
      · rintro ⟨e, he⟩; cases he
    | error e =>
      rw [except_map_error]
      exact ⟨fun _ => ⟨e, rfl⟩, fun _ => ⟨e, rfl⟩⟩

/-- C7 witness: the spec's example `construct("a", 3, 4)` fails with
`InvalidPart` naming `'a'`. -/
theorem claim_c7_witness :
    construct [.nonInt "a".toList, .intArg 3, .intArg 4] =
      .error (.invalidPart "a".toList) :=
  claim_c7.2.1 [] "a".toList [.intArg 3, .intArg 4]

/-! ### Decimal rendering and integer parsing -/

theorem digitChar_isDig (d : Nat) : isDig (digitChar d) = true := by
  rcases d with _ | _ | _ | _ | _ | _ | _ | _ | _ | d <;> rfl

theorem digitVal_digitChar (d : Nat) (h : d < 10) : digitVal (digitChar d) = d := by
  interval_cases d <;> rfl

theorem natDigitsAux_all_digits :
    ∀ fuel n : Nat, ∀ c ∈ natDigitsAux fuel n, isDig c = true
  | 0, n => by simp [natDigitsAux]
  | fuel + 1, n => by
    intro c hc
    simp only [natDigitsAux] at hc
    by_cases h : n < 10
    · rw [if_pos h] at hc
      simp only [List.mem_singleton] at hc
      subst hc
      exact digitChar_isDig n
    · rw [if_neg h] at hc
      rcases List.mem_append.mp hc with hc | hc
      · exact natDigitsAux_all_digits fuel (n / 10) c hc
      · simp only [List.mem_singleton] at hc
        subst hc
        exact digitChar_isDig _

theorem natDigitsAux_ne_nil (fuel n : Nat) : natDigitsAux (fuel + 1) n ≠ [] := by
  simp only [natDigitsAux]
  by_cases h : n < 10
  · rw [if_pos h]; simp
  · rw [if_neg h]; simp

theorem natToDigits_ne_nil (n : Nat) : natToDigits n ≠ [] := natDigitsAux_ne_nil n n

theorem foldl_natDigitsAux : ∀ fuel n : Nat, n < fuel → ∀ acc : Nat,
    (natDigitsAux fuel n).foldl (fun a c => a * 10 + digitVal c) acc =
      acc * 10 ^ (natDigitsAux fuel n).length + n
  | 0, n, h, _ => absurd h (by omega)
  | fuel + 1, n, h, acc => by
    simp only [natDigitsAux]
    by_cases h10 : n < 10
    · rw [if_pos h10]
      simp only [List.foldl_cons, List.foldl_nil, List.length_singleton,
        digitVal_digitChar n h10, pow_one]
    · rw [if_neg h10]
      have hlt : n / 10 < fuel := by
        have h1 : n / 10 < n := Nat.div_lt_self (by omega) (by omega)
        omega
      rw [List.foldl_append, foldl_natDigitsAux fuel (n / 10) hlt acc]
      simp only [List.foldl_cons, List.foldl_nil, List.length_append,
        List.length_singleton]
      rw [digitVal_digitChar _ (Nat.mod_lt n (by omega))]
      rw [pow_succ]
      have hdm : n / 10 * 10 + n % 10 = n := by omega
      calc (acc * 10 ^ (natDigitsAux fuel (n / 10)).length + n / 10) * 10 + n % 10
          = acc * (10 ^ (natDigitsAux fuel (n / 10)).length * 10) +
              (n / 10 * 10 + n % 10) := by ring
        _ = acc * (10 ^ (natDigitsAux fuel (n / 10)).length * 10) + n := by rw [hdm]

theorem digitsCore_all_digits :
    ∀ l : List Char, (∀ c ∈ l, isDig c = true) → ∀ acc : Nat,
      digitsCore acc l = some (l.foldl (fun a c => a * 10 + digitVal c) acc)
  | [], _, _ => rfl
  | c :: cs, h, acc => by
    have hc := h c (List.mem_cons_self c cs)
    rw [List.foldl_cons]
    conv_lhs => rw [digitsCore.eq_def]
    simp only [hc, if_true]
    exact digitsCore_all_digits cs (fun x hx => h x (List.mem_cons_of_mem c hx)) _

theorem parseDigits_natToDigits (n : Nat) : parseDigits (natToDigits n) = some n := by
  have hne := natToDigits_ne_nil n
  have hdig : ∀ c ∈ natToDigits n, isDig c = true := natDigitsAux_all_digits (n + 1) n
  have hfold : (natToDigits n).foldl (fun a c => a * 10 + digitVal c) 0 =
      0 * 10 ^ (natToDigits n).length + n := foldl_natDigitsAux (n + 1) n (by omega) 0
  cases hnd : natToDigits n with
  | nil => exact absurd hnd hne
  | cons c cs =>
    rw [hnd] at hdig hfold
    simp only [parseDigits]
    rw [if_pos (hdig c (List.mem_cons_self c cs))]
    rw [digitsCore_all_digits cs (fun x hx => hdig x (List.mem_cons_of_mem c hx))
      (digitVal c)]
    congr 1
    simp only [List.foldl_cons, zero_mul, zero_add] at hfold
    exact hfold

theorem intRender_chars (i : Int) :
    ∀ c ∈ intRender i, c.toNat = 45 ∨ (48 ≤ c.toNat ∧ c.toNat ≤ 57) := by
  intro c hc
  unfold intRender at hc
  by_cases h : i < 0
  · rw [if_pos h] at hc
    rcases List.mem_cons.mp hc with rfl | hc
    · left; rfl
    · right
      have hd := natDigitsAux_all_digits _ _ c hc
      simpa [isDig] using hd
  · rw [if_neg h] at hc
    right
    have hd := natDigitsAux_all_digits _ _ c hc
    simpa [isDig] using hd

theorem isSpace_toNat {c : Char} (h : isSpace c = true) :
    c.toNat = 32 ∨ c.toNat = 9 ∨ c.toNat = 10 ∨ c.toNat = 13 ∨
      c.toNat = 11 ∨ c.toNat = 12 := by
  simp only [isSpace, Bool.or_eq_true, decide_eq_true_eq] at h
  rcases h with ((((h | h) | h) | h) | h) | h <;> (subst h; decide)

theorem intRender_noSpace (i : Int) : ∀ c ∈ intRender i, isSpace c = false := by
  intro c hc
  cases hs : isSpace c
  · rfl
  · exfalso
    have hval := isSpace_toNat hs
    rcases intRender_chars i c hc with h | h <;> omega

theorem dropWhile_eq_self_of_noSpace {l : List Char}
    (h : ∀ c ∈ l, isSpace c = false) : l.dropWhile isSpace = l := by
  cases l with
  | nil => rfl
  | cons c cs => simp [List.dropWhile_cons, h c (List.mem_cons_self c cs)]

theorem stripSpaces_eq_self {l : List Char} (h : ∀ c ∈ l, isSpace c = false) :
    stripSpaces l = l := by
  unfold stripSpaces
  rw [dropWhile_eq_self_of_noSpace h,
    dropWhile_eq_self_of_noSpace (fun c hc => h c (List.mem_reverse.mp hc))]
  exact List.reverse_reverse l

theorem pyParseInt_stripped (i : Int) (s : List Char)
    (hs : stripSpaces s = intRender i) : pyParseInt s = some i := by
  unfold pyParseInt
  rw [hs]
  by_cases h : i < 0
  · rw [show intRender i = '-' :: natToDigits (-i).toNat from by
      rw [intRender, if_pos h]]
    show (parseDigits (natToDigits (-i).toNat)).map (fun n => -(n : Int)) = some i
    rw [parseDigits_natToDigits]
    show some (-(((-i).toNat : Nat) : Int)) = some i
    congr 1
    omega
  · rw [show intRender i = natToDigits i.toNat from by rw [intRender, if_neg h]]
    obtain ⟨c, cs, hnd⟩ : ∃ c cs, natToDigits i.toNat = c :: cs := by
      cases hnd : natToDigits i.toNat with
      | nil => exact absurd hnd (natToDigits_ne_nil _)
      | cons c cs => exact ⟨c, cs, rfl⟩
    have hdig : ∀ ch ∈ natToDigits i.toNat, isDig ch = true :=
      natDigitsAux_all_digits (i.toNat + 1) i.toNat
    have hc : isDig c = true := by
      rw [hnd] at hdig
      exact hdig c (List.mem_cons_self c cs)
    have hc45 : c ≠ '-' := by
      intro he; subst he; exact absurd hc (by decide)
    have hc43 : c ≠ '+' := by
      intro he; subst he; exact absurd hc (by decide)
    rw [hnd]
    have hval : parseDigits (c :: cs) = some i.toNat := by
      rw [← hnd]; exact parseDigits_natToDigits i.toNat
    split
    · next rest heq =>
      exact absurd (List.head_eq_of_cons_eq heq.symm).symm hc45
    · next rest heq =>
      exact absurd (List.head_eq_of_cons_eq heq.symm).symm hc43
    · next =>
      rw [hval]
      show some ((i.toNat : Nat) : Int) = some i
      congr 1
      omega

theorem pyParseInt_intRender (i : Int) : pyParseInt (intRender i) = some i :=
  pyParseInt_stripped i _ (stripSpaces_eq_self (intRender_noSpace i))

/-! ### Splitting and joining; claims C5 and C6 -/

theorem splitSep_of_no_sep (c : Char) :
    ∀ t : List Char, (∀ ch ∈ t, ch ≠ c) → splitSep c t = [t]
  | [], _ => rfl
  | a :: rest, h => by
    have ha : a ≠ c := h a (List.mem_cons_self a rest)
    have ih := splitSep_of_no_sep c rest (fun x hx => h x (List.mem_cons_of_mem a hx))
    rw [splitSep.eq_def]
    simp only [if_neg ha, ih]

theorem splitSep_append (c : Char) :
    ∀ t r : List Char, (∀ ch ∈ t, ch ≠ c) →
      splitSep c (t ++ c :: r) = t :: splitSep c r
  | [], r, _ => by
    show splitSep c (c :: r) = [] :: splitSep c r
    rw [splitSep.eq_def]
    simp
  | a :: t, r, h => by
    have ha : a ≠ c := h a (List.mem_cons_self a t)
    have ih := splitSep_append c t r (fun x hx => h x (List.mem_cons_of_mem a hx))
    show splitSep c (a :: (t ++ c :: r)) = _
    rw [splitSep.eq_def]
    simp only [if_neg ha, ih]

theorem splitSep_joinSep (c : Char) :
    ∀ ts : List (List Char), ts ≠ [] →
      (∀ t ∈ ts, ∀ ch ∈ t, ch ≠ c) → splitSep c (joinSep c ts) = ts
  | [], h, _ => absurd rfl h
  | [t], _, hall => by
    show splitSep c t = [t]
    exact splitSep_of_no_sep c t (hall t (List.mem_cons_self t []))
  | t :: t2 :: ts, _, hall => by
    show splitSep c (t ++ c :: joinSep c (t2 :: ts)) = t :: (t2 :: ts)
    rw [splitSep_append c t _ (hall t (List.mem_cons_self t _)),
      splitSep_joinSep c (t2 :: ts) (by simp)
        (fun x hx => hall x (List.mem_cons_of_mem t hx))]

theorem intRender_ne_dot (i : Int) : ∀ ch ∈ intRender i, ch ≠ '.' := by
  intro ch hc he
  subst he
  rcases intRender_chars i '.' hc with h | h
  · exact absurd h (by decide)
  · have h46 : ('.').toNat = 46 := rfl
    omega

theorem parseParts_map_intRender : ∀ l : List Int, parseParts (l.map intRender) = .ok l
  | [] => rfl
  | i :: rest => by
    show parseParts (intRender i :: rest.map intRender) = _
    rw [parseParts.eq_def]
    simp only [pyParseInt_intRender i, parseParts_map_intRender rest, except_map_ok]

/-- C5 counterexample: the claim asserts the round-trip
`parse(to_string(construct(p))) = construct(p)` for every integer sequence
`p`, but for the empty sequence `to_string` yields the empty string, whose
parse fails with `ParseError` on the empty token. -/
theorem claim_c5_counterexample :
    from_string (version_str ⟨[]⟩) = .error (.parseError []) := rfl

/-- C5 (amended): for every nonempty sequence of integer parts `p`,
`to_string` renders the parts joined by `.` in canonical decimal form, and
parsing this canonical generated string round-trips to the same version.
(For the empty sequence the rendered string is empty and parsing it fails.) -/
theorem claim_c5_amended (p : List Int) (hp : p ≠ []) :
    version_str ⟨p⟩ = joinSep '.' (p.map intRender) ∧
    from_string (version_str ⟨p⟩) = .ok ⟨p⟩ := by
  have hnod : ∀ t ∈ p.map intRender, ∀ ch ∈ t, ch ≠ '.' := by
    intro t ht ch hch
    obtain ⟨i, _, rfl⟩ := List.mem_map.mp ht
    exact intRender_ne_dot i ch hch
  have hne : p.map intRender ≠ [] := by
    intro h
    exact hp (by simpa using h)
  refine ⟨rfl, ?_⟩
  show (parseParts (splitSep '.' (joinSep '.' (p.map intRender)))).map BaseVersion.mk = _
  rw [splitSep_joinSep '.' (p.map intRender) hne hnod, parseParts_map_intRender p,
    except_map_ok]

/-- C5 witness: the round-trip at the spec's example `-3.5.-99`. -/
theorem claim_c5_witness :
    from_string (version_str ⟨[-3, 5, -99]⟩) = .ok ⟨[-3, 5, -99]⟩ :=
  (claim_c5_amended [-3, 5, -99] (by decide)).2

theorem parseParts_ok_iff : ∀ (ts : List (List Char)) (l : List Int),
    parseParts ts = .ok l ↔ ts.mapM pyParseInt = some l
  | [], l => by
    simp only [parseParts, List.mapM_nil]
    constructor
    · intro h
      injection h with h
      rw [h]
      rfl
    · intro h
      have h2 : some ([] : List Int) = some l := h
      injection h2 with h2
      rw [h2]
  | t :: ts, l => by
    rw [List.mapM_cons]
    cases hp : pyParseInt t with
    | none =>
      have hstep : parseParts (t :: ts) = .error (.parseError t) := by
        rw [parseParts.eq_2, hp]
      rw [hstep]
      show Except.error (SemverError.parseError t) = Except.ok l ↔
        (none : Option (List Int)) = some l
      constructor
      · intro h; cases h
      · intro h; cases h
    | some i =>
      have hstep : parseParts (t :: ts) = (parseParts ts).map (i :: ·) := by
        rw [parseParts.eq_2, hp]
      rw [hstep]
      cases hq : parseParts ts with
      | ok l' =>
        rw [except_map_ok, (parseParts_ok_iff ts l').mp hq]
        show Except.ok (i :: l') = Except.ok l ↔ some (i :: l') = some l
        constructor
        · intro h
          injection h with h
          rw [h]
        · intro h
          injection h with h
          rw [h]
      | error e =>
        rw [except_map_error]
        cases hm : ts.mapM pyParseInt with
        | none =>
          show Except.error e = Except.ok l ↔ (none : Option (List Int)) = some l
          constructor
          · intro h; cases h
          · intro h; cases h
        | some l' =>
          have hcontra := (parseParts_ok_iff ts l').mpr hm
          rw [hq] at hcontra
          cases hcontra

theorem parseParts_error_iff : ∀ ts : List (List Char),
    (∃ e, parseParts ts = .error e) ↔ ∃ t ∈ ts, pyParseInt t = none
  | [] => by simp [parseParts]
  | t :: ts => by
    cases hp : pyParseInt t with
    | none =>
      have hstep : parseParts (t :: ts) = .error (.parseError t) := by
        rw [parseParts.eq_2, hp]
      rw [hstep]
      constructor
      · intro _; exact ⟨t, List.mem_cons_self t ts, hp⟩
      · intro _; exact ⟨.parseError t, rfl⟩
    | some i =>
      have hstep : parseParts (t :: ts) = (parseParts ts).map (i :: ·) := by
        rw [parseParts.eq_2, hp]
      rw [hstep]
      have ih := parseParts_error_iff ts
      constructor
      · rintro ⟨e, he⟩
        cases hq : parseParts ts with
        | ok l => rw [hq, except_map_ok] at he; cases he
        | error e' =>
          obtain ⟨t', ht', hpt'⟩ := ih.mp ⟨e', hq⟩
          exact ⟨t', List.mem_cons_of_mem t ht', hpt'⟩
      · rintro ⟨t', ht', hpt'⟩
        rcases List.mem_cons.mp ht' with rfl | ht'
        · rw [hp] at hpt'; cases hpt'
        · obtain ⟨e, he⟩ := ih.mpr ⟨t', ht', hpt'⟩
          rw [he, except_map_error]
          exact ⟨e, rfl⟩

theorem parseParts_error_form : ∀ (ts : List (List Char)) (e : SemverError),
    parseParts ts = .error e →
      ∃ t, e = .parseError t ∧ t ∈ ts ∧ pyParseInt t = none
  | [], _ => by intro h; cases h
  | t :: ts, e => by
    intro h
    cases hp : pyParseInt t with
    | none =>
      have hstep : parseParts (t :: ts) = .error (.parseError t) := by
        rw [parseParts.eq_2, hp]
      rw [hstep] at h
      injection h with h2
      exact ⟨t, h2.symm, List.mem_cons_self t ts, hp⟩
    | some i =>
      have hstep : parseParts (t :: ts) = (parseParts ts).map (i :: ·) := by
        rw [parseParts.eq_2, hp]
      rw [hstep] at h
      cases hq : parseParts ts with
      | ok l => rw [hq, except_map_ok] at h; cases h
      | error e' =>
        rw [hq, except_map_error] at h
        injection h with h2
        subst h2
        obtain ⟨t', he, ht', hpt'⟩ := parseParts_error_form ts e' hq
        exact ⟨t', he, List.mem_cons_of_mem t ht', hpt'⟩

/-- C6: `parse` splits the input on `.` and returns the version of the
tokens parsed as integers; it fails exactly when some token is not a valid
integer literal, the error is always a `ParseError` carrying such an
offending token, and the empty string fails with `ParseError` on the empty
token. -/
theorem claim_c6 :
    (∀ (s : List Char) (v : BaseVersion),
      from_string s = .ok v ↔ (splitSep '.' s).mapM pyParseInt = some v.parts) ∧
    (∀ s : List Char, (∃ e, from_string s = .error e) ↔
      ∃ t ∈ splitSep '.' s, pyParseInt t = none) ∧
    (∀ (s : List Char) (e : SemverError), from_string s = .error e →
      ∃ t, e = .parseError t ∧ t ∈ splitSep '.' s ∧ pyParseInt t = none) ∧
    from_string [] = .error (.parseError []) := by
  refine ⟨?_, ?_, ?_, rfl⟩
  · intro s v
    obtain ⟨vp⟩ := v
    unfold from_string
    cases hq : parseParts (splitSep '.' s) with
    | ok l =>
      rw [except_map_ok, (parseParts_ok_iff _ l).mp hq]
      constructor
      · intro h
        have hmk : (⟨l⟩ : BaseVersion) = ⟨vp⟩ := by injection h
        have hl : l = vp := by cases hmk; rfl
        rw [hl]
      · intro h
        have hl : l = vp := by injection h
        rw [hl]
    | error e =>
      rw [except_map_error]
      cases hm : (splitSep '.' s).mapM pyParseInt with
      | none =>
        constructor
        · intro h; cases h
        · intro h; cases h
      | some l' =>
        have hcontra := (parseParts_ok_iff _ l').mpr hm
        rw [hq] at hcontra
        cases hcontra
  · intro s
    unfold from_string
    rw [← parseParts_error_iff]
    cases parseParts (splitSep '.' s) with
    | ok l =>
      rw [except_map_ok]
      constructor
      · rintro ⟨e, he⟩; cases he
      · rintro ⟨e, he⟩; cases he
    | error e =>
      rw [except_map_error]
      exact ⟨fun _ => ⟨e, rfl⟩, fun _ => ⟨e, rfl⟩⟩
  · intro s e h
    unfold from_string at h
    cases hq : parseParts (splitSep '.' s) with
    | ok l => rw [hq, except_map_ok] at h; cases h
    | error e' =>
      rw [hq, except_map_error] at h
      injection h with h2
      subst h2
      exact parseParts_error_form _ e' hq

/-- C6 witness: the spec's example `parse("3.4.5.abc")` fails with a
`ParseError` carrying the offending token `abc`. -/
theorem claim_c6_witness :
    ∃ t, SemverError.parseError "abc".toList = .parseError t ∧
      t ∈ splitSep '.' "3.4.5.abc".toList ∧ pyParseInt t = none :=
  claim_c6.2.2.1 "3.4.5.abc".toList (.parseError "abc".toList) (by rfl)

/-! ### Debug representation: claim C9 -/

theorem intRender_ne_comma (i : Int) : ∀ ch ∈ intRender i, ch ≠ ',' := by
  intro ch hc he
  subst he
  rcases intRender_chars i ',' hc with h | h
  · exact absurd h (by decide)
  · have h44 : (',').toNat = 44 := rfl
    omega

theorem intRender_ne_nil (i : Int) : intRender i ≠ [] := by
  unfold intRender
  by_cases h : i < 0
  · rw [if_pos h]; simp
  · rw [if_neg h]; exact natToDigits_ne_nil _

theorem stripSpaces_space_cons (l : List Char) (h : ∀ c ∈ l, isSpace c = false) :
    stripSpaces (' ' :: l) = l := by
  unfold stripSpaces
  rw [List.dropWhile_cons, if_pos (show isSpace ' ' = true from rfl)]
  rw [dropWhile_eq_self_of_noSpace h,
    dropWhile_eq_self_of_noSpace (fun c hc => h c (List.mem_reverse.mp hc))]
  exact List.reverse_reverse l

theorem pyParseInt_space_intRender (i : Int) :
    pyParseInt (' ' :: intRender i) = some i :=
  pyParseInt_stripped i _ (stripSpaces_space_cons _ (intRender_noSpace i))

theorem mapM_space_tokens :
    ∀ ys : List Int, (ys.map (fun y => ' ' :: intRender y)).mapM pyParseInt = some ys
  | [] => rfl
  | y :: ys => by
    rw [List.map_cons, List.mapM_cons, pyParseInt_space_intRender y,
      mapM_space_tokens ys]
    rfl

theorem splitSep_comma_flat :
    ∀ (h : List Char) (xs : List Int), (∀ ch ∈ h, ch ≠ ',') →
      splitSep ',' (h ++ xs.flatMap (fun y => ',' :: ' ' :: intRender y)) =
        h :: xs.map (fun y => ' ' :: intRender y)
  | h, [], hh => by
    show splitSep ',' (h ++ []) = [h]
    rw [List.append_nil]
    exact splitSep_of_no_sep ',' h hh
  | h, y :: ys, hh => by
    have hh2 : ∀ ch ∈ ' ' :: intRender y, ch ≠ ',' := by
      intro ch hc
      rcases List.mem_cons.mp hc with rfl | hc
      · decide
      · exact intRender_ne_comma y ch hc
    have ih := splitSep_comma_flat (' ' :: intRender y) ys hh2
    show splitSep ','
        (h ++ ',' ::
          ((' ' :: intRender y) ++ ys.flatMap (fun z => ',' :: ' ' :: intRender z))) =
      h :: (' ' :: intRender y) :: ys.map (fun z => ' ' :: intRender z)
    rw [splitSep_append ',' h _ hh, ih]

theorem getLast?_mem_list :
    ∀ (L : List (List Char)) (u : List Char), L.getLast? = some u → u ∈ L
  | [], _ => by intro h; cases h
  | t :: ts, u => by
    intro h
    cases ts with
    | nil =>
      have h2 : some t = some u := h
      injection h2 with h2
      rw [← h2]
      exact List.mem_cons_self t []
    | cons t2 ts2 =>
      have h2 : (t2 :: ts2).getLast? = some u := by
        rw [← h]
        exact List.getLast?_cons_cons.symm
      exact List.mem_cons_of_mem t (getLast?_mem_list (t2 :: ts2) u h2)

theorem reprDecodeBody_tupleBody : ∀ l : List Int, reprDecodeBody (tupleBody l) = some l
  | [] => rfl
  | [x] => by
    show reprDecodeBody (intRender x ++ [',', ')']) = some [x]
    unfold reprDecodeBody
    rw [show intRender x ++ [',', ')'] = (intRender x ++ [',']) ++ [')'] from by simp]
    rw [List.getLast?_concat, if_pos rfl, List.dropLast_concat]
    have hne : intRender x ++ [','] ≠ [] := by simp
    rw [if_neg hne]
    have htoks : splitSep ',' (intRender x ++ [',']) = [intRender x, []] := by
      rw [show intRender x ++ [','] = intRender x ++ ',' :: [] from rfl,
        splitSep_append ',' (intRender x) [] (intRender_ne_comma x)]
      rfl
    rw [htoks]
    unfold dropTrailingEmpty
    rw [if_pos (show ([intRender x, []] : List (List Char)).getLast? = some [] from rfl)]
    show List.mapM pyParseInt [intRender x] = some [x]
    rw [List.mapM_cons, pyParseInt_intRender x]
    rfl
  | x :: x2 :: xs => by
    show reprDecodeBody
        (intRender x ++ (x2 :: xs).flatMap (fun y => ',' :: ' ' :: intRender y) ++ [')']) =
      some (x :: x2 :: xs)
    unfold reprDecodeBody
    rw [List.getLast?_concat, if_pos rfl, List.dropLast_concat]
    have hne : intRender x ++ (x2 :: xs).flatMap (fun y => ',' :: ' ' :: intRender y) ≠ [] := by
      intro hcon
      exact intRender_ne_nil x (List.append_eq_nil.mp hcon).1
    rw [if_neg hne]
    rw [splitSep_comma_flat (intRender x) (x2 :: xs) (intRender_ne_comma x)]
    unfold dropTrailingEmpty
    have hlast :
        (intRender x :: (x2 :: xs).map (fun y => ' ' :: intRender y)).getLast? ≠ some [] := by
      intro hcon
      have hmem := getLast?_mem_list _ _ hcon
      rcases List.mem_cons.mp hmem with h1 | h1
      · exact intRender_ne_nil x h1.symm
      · obtain ⟨y, _, hy⟩ := List.mem_map.mp h1
        cases hy
    rw [if_neg hlast]
    rw [List.mapM_cons, pyParseInt_intRender x, mapM_space_tokens (x2 :: xs)]
    rfl

theorem reprDecode_version_repr (v : BaseVersion) :
    reprDecode (version_repr v) = some v.parts :=
  reprDecodeBody_tupleBody v.parts

/-- C9: the debug representation is the type name `Version` followed by the
ordered parts in Python tuple form (e.g. `Version(2023, 3, 5)` for the
version with parts 2023, 3, 5), and this form determines the value
unambiguously: two versions with the same debug string are equal. -/
theorem claim_c9 :
    (∀ v : BaseVersion, version_repr v = "Version".toList ++ tupleRepr v.parts) ∧
    (∀ v w : BaseVersion, version_repr v = version_repr w → v = w) ∧
    version_repr ⟨[2023, 3, 5]⟩ = "Version(2023, 3, 5)".toList := by
  refine ⟨fun v => rfl, ?_, by decide⟩
  intro v w h
  obtain ⟨vp⟩ := v
  obtain ⟨wp⟩ := w
  have hv := reprDecode_version_repr ⟨vp⟩
  rw [h, reprDecode_version_repr ⟨wp⟩] at hv
  injection hv with h2
  exact congrArg BaseVersion.mk (show wp = vp from h2).symm

/-- C9 witness: the injectivity part applied at a concrete version, with
its hypothesis discharged by computation. -/
theorem claim_c9_witness : (⟨[7]⟩ : BaseVersion) = ⟨[7]⟩ :=
  claim_c9.2.1 ⟨[7]⟩ ⟨[7]⟩ rfl

/-! ### Slice arithmetic: lemmas for claims C8 and C10 -/

theorem sliceLen_pos_iff (a b step : Int) (hstep : 0 < step) (k : Nat) :
    k < sliceLen a b step ↔ a + step * k < b := by
  unfold sliceLen
  rw [if_pos hstep]
  by_cases hab : a < b
  · rw [if_pos hab]
    rw [Nat.lt_succ_iff, Nat.le_div_iff_mul_le (by omega : 0 < step.toNat)]
    have hDcast : (((b - a - 1).toNat : Nat) : Int) = b - a - 1 :=
      Int.toNat_of_nonneg (by omega)
    have hscast : ((step.toNat : Nat) : Int) = step :=
      Int.toNat_of_nonneg (by omega)
    rw [show (k * step.toNat ≤ (b - a - 1).toNat) ↔
        ((k * step.toNat : Nat) : Int) ≤ (((b - a - 1).toNat : Nat) : Int) from
      Int.ofNat_le.symm]
    rw [Nat.cast_mul, hscast, hDcast, mul_comm]
    generalize step * (k : Int) = X
    omega
  · rw [if_neg hab]
    constructor
    · intro h
      exact absurd h (Nat.not_lt_zero k)
    · intro hcon
      exfalso
      have h0 : 0 ≤ step * (k : Int) :=
        mul_nonneg (by omega) (Int.natCast_nonneg k)
      generalize hX : step * (k : Int) = X at h0 hcon
      omega

theorem sliceLen_neg_iff (a b step : Int) (hstep : step < 0) (k : Nat) :
    k < sliceLen a b step ↔ b < a + step * k := by
  unfold sliceLen
  rw [if_neg (by omega : ¬ 0 < step)]
  by_cases hab : b < a
  · rw [if_pos hab]
    rw [Nat.lt_succ_iff, Nat.le_div_iff_mul_le (by omega : 0 < (-step).toNat)]
    have hDcast : (((a - b - 1).toNat : Nat) : Int) = a - b - 1 :=
      Int.toNat_of_nonneg (by omega)
    have hscast : (((-step).toNat : Nat) : Int) = -step :=
      Int.toNat_of_nonneg (by omega)
    rw [show (k * (-step).toNat ≤ (a - b - 1).toNat) ↔
        ((k * (-step).toNat : Nat) : Int) ≤ (((a - b - 1).toNat : Nat) : Int) from
      Int.ofNat_le.symm]
    rw [Nat.cast_mul, hscast, hDcast, mul_neg, mul_comm]
    generalize step * (k : Int) = X
    omega
  · rw [if_neg hab]
    constructor
    · intro h
      exact absurd h (Nat.not_lt_zero k)
    · intro hcon
      exfalso
      have h0 : step * (k : Int) ≤ 0 := by
        have h1 := mul_le_mul_of_nonneg_right (show step ≤ 0 by omega)
          (Int.natCast_nonneg k)
        simpa using h1
      generalize hX : step * (k : Int) = X at h0 hcon
      omega

theorem clampIdx_pos_bounds (n : Nat) (step s : Int) (hstep : 0 < step) :
    0 ≤ clampIdx n step s ∧ clampIdx n step s ≤ (n : Int) := by
  unfold clampIdx
  rw [if_pos hstep]
  by_cases hs : s < 0
  · rw [if_pos hs]
    exact ⟨le_max_right _ _, max_le (by omega) (by omega)⟩
  · rw [if_neg hs]
    exact ⟨le_min (by omega) (by omega), min_le_right _ _⟩

theorem clampIdx_neg_bounds (n : Nat) (step s : Int) (hstep : step < 0) :
    -1 ≤ clampIdx n step s ∧ clampIdx n step s ≤ (n : Int) - 1 := by
  unfold clampIdx
  rw [if_neg (by omega : ¬ 0 < step)]
  by_cases hs : s < 0
  · rw [if_pos hs]
    exact ⟨le_max_right _ _, max_le (by omega) (by omega)⟩
  · rw [if_neg hs]
    exact ⟨le_min (by omega) (by omega), min_le_right _ _⟩

theorem adjStart_pos_bounds (n : Nat) (step : Int) (hstep : 0 < step)
    (os : Option Int) : 0 ≤ adjStart n step os ∧ adjStart n step os ≤ (n : Int) := by
  cases os with
  | none =>
    simp only [adjStart]
    rw [if_pos hstep]
    omega
  | some s =>
    simp only [adjStart]
    exact clampIdx_pos_bounds n step s hstep

theorem adjStart_neg_bounds (n : Nat) (step : Int) (hstep : step < 0)
    (os : Option Int) :
    -1 ≤ adjStart n step os ∧ adjStart n step os ≤ (n : Int) - 1 := by
  cases os with
  | none =>
    simp only [adjStart]
    rw [if_neg (by omega : ¬ 0 < step)]
    omega
  | some s =>
    simp only [adjStart]
    exact clampIdx_neg_bounds n step s hstep

theorem adjStop_pos_bounds (n : Nat) (step : Int) (hstep : 0 < step)
    (op : Option Int) : 0 ≤ adjStop n step op ∧ adjStop n step op ≤ (n : Int) := by
  cases op with
  | none =>
    simp only [adjStop]
    rw [if_pos hstep]
    omega
  | some s =>
    simp only [adjStop]
    exact clampIdx_pos_bounds n step s hstep

theorem adjStop_neg_bounds (n : Nat) (step : Int) (hstep : step < 0)
    (op : Option Int) :
    -1 ≤ adjStop n step op ∧ adjStop n step op ≤ (n : Int) - 1 := by
  cases op with
  | none =>
    simp only [adjStop]
    rw [if_neg (by omega : ¬ 0 < step)]
    omega
  | some s =>
    simp only [adjStop]
    exact clampIdx_neg_bounds n step s hstep

theorem sliceSelect_length (parts : List Int) (a step : Int) (len : Nat) :
    (sliceSelect parts a step len).length = len := by
  unfold sliceSelect
  rw [List.length_map, List.length_range]

theorem sliceSelect_getD (parts : List Int) (a step : Int) (len : Nat)
    (k : Nat) (hk : k < len) :
    (sliceSelect parts a step len).getD k 0 = parts.getD (a + step * k).toNat 0 := by
  unfold sliceSelect
  rw [List.getD_eq_getElem?_getD, List.getElem?_map, List.getElem?_range hk]
  rfl

theorem sliceSelect_spec (parts : List Int) (a b step : Int) (hstep : step ≠ 0)
    (hpos : 0 < step → 0 ≤ a ∧ b ≤ (parts.length : Int))
    (hneg : step < 0 → a ≤ (parts.length : Int) - 1 ∧ -1 ≤ b) :
    (∀ k : Nat, k < sliceLen a b step →
      0 ≤ a + step * k ∧ a + step * k < (parts.length : Int) ∧
      (sliceSelect parts a step (sliceLen a b step)).getD k 0 =
        parts.getD (a + step * k).toNat 0) ∧
    (∀ k : Nat, (k < sliceLen a b step ↔
      if 0 < step then a + step * k < b else b < a + step * k)) := by
  constructor
  · intro k hk
    have hgetD := sliceSelect_getD parts a step _ k hk
    by_cases hps : 0 < step
    · have hb := (sliceLen_pos_iff a b step hps k).mp hk
      obtain ⟨ha0, hbn⟩ := hpos hps
      have h2 : 0 ≤ step * (k : Int) := mul_nonneg (by omega) (Int.natCast_nonneg k)
      refine ⟨?_, ?_, hgetD⟩ <;>
        (generalize hX : step * (k : Int) = X at h2 hb ⊢; omega)
    · have hns : step < 0 := by omega
      have hb := (sliceLen_neg_iff a b step hns k).mp hk
      obtain ⟨han, hbm⟩ := hneg hns
      have h2 : step * (k : Int) ≤ 0 := by
        have h1 := mul_le_mul_of_nonneg_right (show step ≤ 0 by omega)
          (Int.natCast_nonneg k)
        simpa using h1
      refine ⟨?_, ?_, hgetD⟩ <;>
        (generalize hX : step * (k : Int) = X at h2 hb ⊢; omega)
  · intro k
    by_cases hps : 0 < step
    · rw [if_pos hps]
      exact sliceLen_pos_iff a b step hps k
    · rw [if_neg hps]
      exact sliceLen_neg_iff a b step (by omega) k

theorem getitem_slice_reduce (v : BaseVersion) (os op ostep : Option Int)
    (hstep : ostep.getD 1 ≠ 0) :
    getitem v (.slc (encOpt os) (encOpt op) (encOpt ostep)) =
      .ok (.seq (sliceSelect v.parts (adjStart v.parts.length (ostep.getD 1) os)
        (ostep.getD 1)
        (sliceLen (adjStart v.parts.length (ostep.getD 1) os)
          (adjStop v.parts.length (ostep.getD 1) op) (ostep.getD 1)))) := by
  cases ostep with
  | none =>
    cases os <;> cases op <;> rfl
  | some s =>
    have hs : s ≠ 0 := by simpa using hstep
    cases os <;> cases op <;>
      simp only [getitem, encOpt, decodeComp, Option.getD, if_neg hs]

theorem getitem_idx_eq (v : BaseVersion) (i : Int) :
    getitem v (.idx i) =
      (if 0 ≤ (if i < 0 then i + (v.parts.length : Int) else i) ∧
          (if i < 0 then i + (v.parts.length : Int) else i) < (v.parts.length : Int) then
        .ok (.one (v.parts.getD
          (if i < 0 then i + (v.parts.length : Int) else i).toNat 0))
      else .error .indexOutOfRange) := rfl

theorem getitem_slc_ne_ioor (v : BaseVersion) (st sp stp : SliceComp) :
    getitem v (.slc st sp stp) ≠ .error .indexOutOfRange := by
  cases stp with
  | otherC t =>
    intro h
    injection h with h2
    cases h2
  | noneC =>
    cases st <;> cases sp <;>
      (intro h; first
        | (injection h with h2; cases h2)
        | injection h)
  | intC s =>
    by_cases hs : s = 0
    · subst hs
      intro h
      injection h with h2
      cases h2
    · cases st <;> cases sp <;>
        (intro h
         simp only [getitem, decodeComp, Option.getD, if_neg hs] at h
         first
          | (injection h with h2; cases h2)
          | injection h)

/-- C8 counterexample: the claim says a range key returns the ordered
sub-sequence selected by the range and step, but a slice whose step is zero
is rejected by the tuple subscript with the `ValueError`-equivalent
`zeroStep` instead of returning a sub-sequence (and instead of
`InvalidKeyType`). -/
theorem claim_c8_counterexample :
    getitem ⟨[1, 2, 3]⟩ (.slc .noneC .noneC (.intC 0)) = .error .zeroStep := rfl

/-- C8 (amended): single-index access returns the part at the index, with a
negative index counted from the end, exactly when the index lies in
`[-length, length)`, and fails with `IndexOutOfRange` otherwise; a key that
is neither an integer nor a slice of integer-or-omitted components fails
with `InvalidKeyType`; a slice with nonzero step returns the ordered
sub-sequence of parts selected by the clamped range and step (the `k`-th
returned element is the part at index `start + step * k`, for exactly those
`k` whose index lies strictly before the adjusted stop in the direction of
the step); a slice with step zero fails with the `ValueError`-equivalent
`zeroStep` rather than returning a sub-sequence. -/
theorem claim_c8 :
    (∀ (v : BaseVersion) (i : Int), -(version_len v : Int) ≤ i →
      i < (version_len v : Int) →
      getitem v (.idx i) = .ok (.one (v.parts.getD
        (if i < 0 then i + (v.parts.length : Int) else i).toNat 0))) ∧
    (∀ (v : BaseVersion) (i : Int),
      (i < -(version_len v : Int) ∨ (version_len v : Int) ≤ i) →
      getitem v (.idx i) = .error .indexOutOfRange) ∧
    (∀ (v : BaseVersion) (t : List Char),
      getitem v (.other t) = .error .invalidKeyType) ∧
    (∀ (v : BaseVersion) (st sp : SliceComp) (t : List Char),
      getitem v (.slc st sp (.otherC t)) = .error .invalidKeyType) ∧
    (∀ (v : BaseVersion) (st sp : SliceComp) (ostep : Option Int),
      ostep.getD 1 ≠ 0 → ((decodeComp st).isNone ∨ (decodeComp sp).isNone) →
      getitem v (.slc st sp (encOpt ostep)) = .error .invalidKeyType) ∧
    (∀ (v : BaseVersion) (os op ostep : Option Int), ostep.getD 1 ≠ 0 →
      ∃ l : List Int,
        getitem v (.slc (encOpt os) (encOpt op) (encOpt ostep)) = .ok (.seq l) ∧
        l.length = sliceLen (adjStart v.parts.length (ostep.getD 1) os)
          (adjStop v.parts.length (ostep.getD 1) op) (ostep.getD 1) ∧
        (∀ k : Nat, k < l.length →
          0 ≤ adjStart v.parts.length (ostep.getD 1) os + ostep.getD 1 * k ∧
          adjStart v.parts.length (ostep.getD 1) os + ostep.getD 1 * k <
            (v.parts.length : Int) ∧
          l.getD k 0 = v.parts.getD
            (adjStart v.parts.length (ostep.getD 1) os + ostep.getD 1 * k).toNat 0) ∧
        (∀ k : Nat, (k < l.length ↔
          if 0 < ostep.getD 1 then
            adjStart v.parts.length (ostep.getD 1) os + ostep.getD 1 * k <
              adjStop v.parts.length (ostep.getD 1) op
          else
            adjStop v.parts.length (ostep.getD 1) op <
              adjStart v.parts.length (ostep.getD 1) os + ostep.getD 1 * k))) ∧
    (∀ (v : BaseVersion) (st sp : SliceComp),
      getitem v (.slc st sp (.intC 0)) = .error .zeroStep) := by
  refine ⟨?_, ?_, fun _ _ => rfl, fun _ _ _ _ => rfl, ?_, ?_, fun _ _ _ => rfl⟩
  · intro v i h1 h2
    simp only [version_len] at h1 h2
    rw [getitem_idx_eq]
    by_cases hi : i < 0
    · rw [if_pos hi,
        if_pos (show (0:Int) ≤ i + (v.parts.length : Int) ∧
          i + (v.parts.length : Int) < (v.parts.length : Int) by omega)]
    · rw [if_neg hi,
        if_pos (show (0:Int) ≤ i ∧ i < (v.parts.length : Int) by omega)]
  · intro v i h
    simp only [version_len] at h
    rw [getitem_idx_eq]
    by_cases hi : i < 0
    · rw [if_pos hi,
        if_neg (show ¬((0:Int) ≤ i + (v.parts.length : Int) ∧
          i + (v.parts.length : Int) < (v.parts.length : Int)) by omega)]
    · rw [if_neg hi,
        if_neg (show ¬((0:Int) ≤ i ∧ i < (v.parts.length : Int)) by omega)]
  · intro v st sp ostep hstep hnone
    cases ostep with
    | none =>
      cases st <;> cases sp <;>
        first
          | rfl
          | simp [decodeComp] at hnone
    | some s =>
      have hs : s ≠ 0 := by simpa using hstep
      cases st <;> cases sp <;>
        first
          | (simp only [getitem, encOpt, decodeComp, Option.getD, if_neg hs]; done)
          | simp [decodeComp] at hnone
  · intro v os op ostep hstep
    have hspec := sliceSelect_spec v.parts
      (adjStart v.parts.length (ostep.getD 1) os)
      (adjStop v.parts.length (ostep.getD 1) op) (ostep.getD 1) hstep
      (fun hp => ⟨(adjStart_pos_bounds _ _ hp os).1, (adjStop_pos_bounds _ _ hp op).2⟩)
      (fun hn => ⟨(adjStart_neg_bounds _ _ hn os).2, (adjStop_neg_bounds _ _ hn op).1⟩)
    refine ⟨_, getitem_slice_reduce v os op ostep hstep,
      sliceSelect_length _ _ _ _, ?_, ?_⟩
    · intro k hk
      rw [sliceSelect_length] at hk
      exact hspec.1 k hk
    · intro k
      rw [sliceSelect_length]
      exact hspec.2 k

/-- C8 witness: the spec's examples on `2023.05.33.3242` — index 2 gives 33,
index -1 gives 3242, index 999 is out of range — via the amended theorem. -/
theorem claim_c8_witness :
    getitem ⟨[2023, 5, 33, 3242]⟩ (.idx 2) = .ok (.one 33) ∧
    getitem ⟨[2023, 5, 33, 3242]⟩ (.idx (-1)) = .ok (.one 3242) ∧
    getitem ⟨[2023, 5, 33, 3242]⟩ (.idx 999) = .error .indexOutOfRange := by
  refine ⟨?_, ?_, ?_⟩
  · exact (claim_c8.1 ⟨[2023, 5, 33, 3242]⟩ 2 (by decide) (by decide)).trans rfl
  · exact (claim_c8.1 ⟨[2023, 5, 33, 3242]⟩ (-1) (by decide) (by decide)).trans rfl
  · exact claim_c8.2.1 ⟨[2023, 5, 33, 3242]⟩ 999 (.inr (by decide))

/-- C10 counterexample: the claim says every range key (with optional step)
returns a possibly empty sub-sequence, but a zero step — even with in-range
endpoints — fails with the `ValueError`-equivalent `zeroStep`. -/
theorem claim_c10_counterexample :
    getitem ⟨[1, 2, 3]⟩ (.slc (.intC 0) (.intC 2) (.intC 0)) = .error .zeroStep := rfl

/-- C10 (amended): a range key with integer-or-omitted endpoints and nonzero
step never fails — in particular never with `IndexOutOfRange` — even when
its endpoints lie outside `[-length, length)`: the endpoints are clamped
and a (possibly empty) sub-sequence is returned; a zero step fails with the
`ValueError`-equivalent `zeroStep`, still not `IndexOutOfRange`; and
`IndexOutOfRange` arises only from single-integer-index access, at an index
outside `[-length, length)`. -/
theorem claim_c10 :
    (∀ (v : BaseVersion) (os op ostep : Option Int), ostep.getD 1 ≠ 0 →
      ∃ l : List Int,
        getitem v (.slc (encOpt os) (encOpt op) (encOpt ostep)) = .ok (.seq l)) ∧
    (∀ (v : BaseVersion) (os op : Option Int),
      getitem v (.slc (encOpt os) (encOpt op) (.intC 0)) = .error .zeroStep) ∧
    (∀ (v : BaseVersion) (key : Key),
      getitem v key = .error .indexOutOfRange →
      ∃ i : Int, key = .idx i ∧
        (i < -(version_len v : Int) ∨ (version_len v : Int) ≤ i)) := by
  refine ⟨?_, fun _ _ _ => rfl, ?_⟩
  · intro v os op ostep hstep
    exact ⟨_, getitem_slice_reduce v os op ostep hstep⟩
  · intro v key h
    cases key with
    | idx i =>
      refine ⟨i, rfl, ?_⟩
      simp only [version_len]
      rw [getitem_idx_eq] at h
      by_cases hi : i < 0
      · rw [if_pos hi] at h
        by_cases hc : (0:Int) ≤ i + (v.parts.length : Int) ∧
            i + (v.parts.length : Int) < (v.parts.length : Int)
        · rw [if_pos hc] at h; cases h
        · omega
      · rw [if_neg hi] at h
        by_cases hc : (0:Int) ≤ i ∧ i < (v.parts.length : Int)
        · rw [if_pos hc] at h; cases h
        · omega
    | slc st sp stp => exact absurd h (getitem_slc_ne_ioor v st sp stp)
    | other t =>
      exfalso
      injection h with h2
      cases h2

/-- C10 witness: a range with far out-of-bounds endpoints still returns a
sub-sequence rather than an error. -/
theorem claim_c10_witness :
    ∃ l : List Int,
      getitem ⟨[1, 2]⟩ (.slc (.intC (-100)) (.intC 100) .noneC) = .ok (.seq l) :=
  claim_c10.1 ⟨[1, 2]⟩ (some (-100)) (some 100) none (by decide)

end PySemver
